import Mathlib

/-!
Verification of the anna-backend server (`src/server.js`) against its
natural-language specification.

Strings are modelled as `List Char`, one entry per UTF-16 code unit of the
JavaScript string (the texts handled by the server live in the basic
multilingual plane, where code units and code points coincide).
-/

set_option maxRecDepth 100000

/-- JavaScript strings, one code unit per list entry. -/
abbrev Str := List Char

/-- Model of the JavaScript regex class `\s` (ECMAScript WhiteSpace and
LineTerminator characters). -/
def jsIsSpace (c : Char) : Bool :=
  let n := c.toNat
  (9 ≤ n && n ≤ 13) || n == 32 || n == 0xa0 || n == 0x1680 ||
  (0x2000 ≤ n && n ≤ 0x200a) || n == 0x2028 || n == 0x2029 ||
  n == 0x202f || n == 0x205f || n == 0x3000 || n == 0xfeff

/-- Model of the Unicode classes `\p{L}\p{N}` used in `finalizeReply`'s
deduplication key, on the Basic Latin / Latin-1 / Latin Extended ranges
that the Swedish-language server handles. -/
def jsIsLetterOrDigit (c : Char) : Bool :=
  let n := c.toNat
  (48 ≤ n && n ≤ 57) || (65 ≤ n && n ≤ 90) || (97 ≤ n && n ≤ 122) ||
  (0xC0 ≤ n && n ≤ 0x24F && n != 0xD7 && n != 0xF7)

/-- Model of `String.prototype.toLowerCase` on the Basic Latin and Latin-1
ranges. -/
def jsToLower (c : Char) : Char :=
  let n := c.toNat
  if 65 ≤ n && n ≤ 90 then Char.ofNat (n + 32)
  else if 0xC0 ≤ n && n ≤ 0xDE && n != 0xD7 then Char.ofNat (n + 32)
  else c

/-- `String.prototype.trim`: drop whitespace from both ends. -/
def jsTrim (l : Str) : Str :=
  ((l.dropWhile jsIsSpace).reverse.dropWhile jsIsSpace).reverse

/-- `text.replace(/\s+/g, " ")` (server.js line 31): every maximal run of
whitespace becomes a single ASCII space. -/
def collapseWs : Str → Str
  | [] => []
  | [c] => if jsIsSpace c then [' '] else [c]
  | c :: d :: cs =>
    if jsIsSpace c then
      if jsIsSpace d then collapseWs (d :: cs)
      else ' ' :: collapseWs (d :: cs)
    else c :: collapseWs (d :: cs)

/-- The sentence terminators `.`, `!`, `?` of `finalizeReply`. -/
def isTerm (c : Char) : Bool := c == '.' || c == '!' || c == '?'

/-- One-pass scanner equivalent to the global regex match
`normalized.match(/[^.!?]+[.!?]+/g)` (server.js line 34): `pre` holds the
reversed non-terminator run read so far, `ter` the reversed terminator run
following it; a match is emitted when a non-terminator follows a
terminator run, or at the end of input. -/
def smAux (pre ter : Str) : Str → List Str
  | [] => if pre.isEmpty || ter.isEmpty then [] else [pre.reverse ++ ter.reverse]
  | c :: cs =>
    if isTerm c then
      if pre.isEmpty then smAux [] [] cs
      else smAux pre (c :: ter) cs
    else
      if ter.isEmpty then smAux (c :: pre) [] cs
      else (pre.reverse ++ ter.reverse) :: smAux [c] [] cs

/-- `normalized.match(/[^.!?]+[.!?]+/g) || []` (server.js line 34). -/
def sentenceMatches (l : Str) : List Str := smAux [] [] l

/-- The deduplication key of a sentence segment (server.js lines 38-42):
lowercase, strip characters that are not letters/digits/whitespace,
collapse whitespace, trim. -/
def normKey (s : Str) : Str :=
  jsTrim (collapseWs ((s.map jsToLower).filter
    (fun c => jsIsLetterOrDigit c || jsIsSpace c)))

/-- The dedup loop of server.js lines 35-46: segments whose key is empty or
already seen are skipped; survivors are pushed trimmed, first occurrence
first. -/
def dedupAux (seen : List Str) : List Str → List Str
  | [] => []
  | s :: rest =>
    let key := normKey s
    if key.isEmpty || seen.contains key then dedupAux seen rest
    else jsTrim s :: dedupAux (key :: seen) rest

/-- `uniqueSentences` computed from the raw segment list. -/
def dedupSentences (parts : List Str) : List Str := dedupAux [] parts

/-- `Array.prototype.join(" ")`. -/
def joinSpace : List Str → Str
  | [] => []
  | [s] => s
  | s :: rest => s ++ ' ' :: joinSpace rest

/-- Index of the right-most sentence terminator, i.e.
`Math.max(s.lastIndexOf("."), s.lastIndexOf("!"), s.lastIndexOf("?"))`
(server.js lines 55 and 60), with JavaScript's `-1` sentinel modelled as
`none`. -/
def lastTermIdx : Str → Option Nat
  | [] => none
  | c :: cs =>
    match lastTermIdx cs with
    | some i => some (i + 1)
    | none => if isTerm c then some 0 else none

/-- The regex test `/[.!?]$/.test(candidate)` (server.js line 59). -/
def endsInTerm (l : Str) : Bool :=
  match l.getLast? with
  | some c => isTerm c
  | none => false

/-- Working candidate after the dedup stage (server.js lines 47-51): the
first `maxSentences` surviving sentences joined by a space, or the whole
normalized text when no sentence survived. -/
def candidateOf (normalized : Str) (maxSentences : Nat) : Str :=
  if (dedupSentences (sentenceMatches normalized)).isEmpty then normalized
  else jsTrim (joinSpace ((dedupSentences (sentenceMatches normalized)).take maxSentences))

/-- The ternary `lastStop > 40 ? short.slice(0, lastStop + 1) : short` of
server.js line 56 (`none` plays the role of `lastStop = -1`). -/
def cutAfterThreshold (s : Str) : Str :=
  match lastTermIdx s with
  | some i => if 40 < i then s.take (i + 1) else s
  | none => s

/-- Truncation stage (server.js lines 53-57): slice to `maxChars`, and cut
at the right-most terminator of the slice when its offset exceeds 40. -/
def truncateTo (c : Str) (maxChars : Nat) : Str :=
  if maxChars < c.length then jsTrim (cutAfterThreshold (c.take maxChars))
  else c

/-- The ternary `lastStop > 0 ? candidate.slice(0, lastStop + 1) :
candidate + "."` of server.js line 61. -/
def cutOrDot (s : Str) : Str :=
  match lastTermIdx s with
  | some i => if 0 < i then s.take (i + 1) else s ++ ['.']
  | none => s ++ ['.']

/-- Termination stage (server.js lines 59-62): when the candidate does not
end in a terminator, cut at the right-most terminator if its index is
positive, otherwise append a period. -/
def ensureTerm (c : Str) : Str :=
  if endsInTerm c then c else jsTrim (cutOrDot c)

/-- `finalizeReply` (server.js lines 28-65) on an actual string argument.
The call sites use `maxChars = 520`, `maxSentences = 4`. -/
def finalizeReply (text : Str) (maxChars maxSentences : Nat) : Str :=
  if (jsTrim (collapseWs text)).isEmpty then []
  else ensureTerm (truncateTo (candidateOf (jsTrim (collapseWs text)) maxSentences) maxChars)

/-- An arbitrary JavaScript value passed to `finalizeReply`: a string, or
any non-string value (rejected by the `typeof` guard on line 29). -/
inductive JsValue where
  | str (s : Str)
  | notStr
deriving DecidableEq

/-- `finalizeReply` including the non-string guard of line 29. -/
def finalizeReplyJs : JsValue → Nat → Nat → Str
  | .notStr, _, _ => []
  | .str s, maxChars, maxSentences => finalizeReply s maxChars maxSentences

-- Sanity checks of the embedding on concrete inputs.
example : finalizeReply ("Hej    dar.".toList) 520 4 = ("Hej dar.".toList) := by decide
example : finalizeReply ("Hej".toList) 520 4 = ("Hej.".toList) := by decide
example : finalizeReply ("   ".toList) 520 4 = [] := by decide
example : sentenceMatches ("ab.cd".toList) = [("ab.".toList)] := by decide
example : sentenceMatches ("..a.b".toList) = [("a.".toList)] := by decide
example : finalizeReply ("Hi there. Hi there! Bye.".toList) 520 4
    = ("Hi there. Bye.".toList) := by decide

/-! ## Generic list lemmas about the string helpers -/

lemma dw_length_le (p : Char → Bool) (l : Str) : (l.dropWhile p).length ≤ l.length := by
  induction l with
  | nil => simp
  | cons c cs ih =>
    rw [List.dropWhile_cons]
    split
    · exact Nat.le_succ_of_le ih
    · simp

lemma dw_head?_not (p : Char → Bool) (l : Str) (c : Char)
    (h : (l.dropWhile p).head? = some c) : p c = false := by
  induction l with
  | nil => simp at h
  | cons a as ih =>
    rw [List.dropWhile_cons] at h
    split at h
    · exact ih h
    · simp_all

lemma dw_eq_self (p : Char → Bool) (l : Str)
    (h : ∀ c, l.head? = some c → p c = false) : l.dropWhile p = l := by
  cases l with
  | nil => rfl
  | cons a as =>
    rw [List.dropWhile_cons]
    simp [h a rfl]

lemma suffix_getLast?_of_some {s l : Str} (h : s <:+ l) {c : Char}
    (hc : s.getLast? = some c) : l.getLast? = some c := by
  obtain ⟨t, rfl⟩ := h
  rw [List.getLast?_append, hc]
  rfl

/-! ## Properties of `jsTrim` -/

lemma jsTrim_length_le (l : Str) : (jsTrim l).length ≤ l.length := by
  unfold jsTrim
  rw [List.length_reverse]
  calc ((l.dropWhile jsIsSpace).reverse.dropWhile jsIsSpace).length
      ≤ (l.dropWhile jsIsSpace).reverse.length := dw_length_le _ _
    _ = (l.dropWhile jsIsSpace).length := List.length_reverse _
    _ ≤ l.length := dw_length_le _ _

lemma jsTrim_getLast?_not_space (l : Str) (c : Char)
    (h : (jsTrim l).getLast? = some c) : jsIsSpace c = false := by
  unfold jsTrim at h
  rw [List.getLast?_reverse] at h
  exact dw_head?_not _ _ _ h

lemma jsTrim_head?_not_space (l : Str) (c : Char)
    (h : (jsTrim l).head? = some c) : jsIsSpace c = false := by
  unfold jsTrim at h
  rw [List.head?_reverse] at h
  have h2 : (l.dropWhile jsIsSpace).reverse.getLast? = some c :=
    suffix_getLast?_of_some (List.dropWhile_suffix _) h
  rw [List.getLast?_reverse] at h2
  exact dw_head?_not _ _ _ h2

lemma jsTrim_getLast?_of (l : Str) (c : Char)
    (h : l.getLast? = some c) (hc : jsIsSpace c = false) :
    (jsTrim l).getLast? = some c := by
  unfold jsTrim
  rw [List.getLast?_reverse]
  have hne : l.dropWhile jsIsSpace ≠ [] := by
    intro hnil
    have hall := List.dropWhile_eq_nil_iff.mp hnil
    have hmem : c ∈ l := List.mem_of_mem_getLast? h
    have := hall c hmem
    rw [hc] at this
    exact Bool.false_ne_true this
  have hlast : (l.dropWhile jsIsSpace).getLast? = some c := by
    obtain ⟨t, ht⟩ := List.dropWhile_suffix (l := l) jsIsSpace
    rw [← ht, List.getLast?_append] at h
    cases hx : (l.dropWhile jsIsSpace).getLast? with
    | none => exact absurd (List.getLast?_eq_none_iff.mp hx) hne
    | some d => rw [hx] at h; simpa using h
  have hhead : (l.dropWhile jsIsSpace).reverse.head? = some c := by
    rw [List.head?_reverse]; exact hlast
  rw [dw_eq_self _ _ (fun d hd => by rw [hhead] at hd; cases hd; exact hc)]
  exact hhead

lemma jsTrim_eq_self (l : Str)
    (h1 : ∀ c, l.head? = some c → jsIsSpace c = false)
    (h2 : ∀ c, l.getLast? = some c → jsIsSpace c = false) : jsTrim l = l := by
  unfold jsTrim
  rw [dw_eq_self _ _ h1]
  rw [dw_eq_self _ _ (fun c hc => h2 c (by rw [← List.head?_reverse]; exact hc))]
  exact List.reverse_reverse l

lemma jsTrim_idem (l : Str) : jsTrim (jsTrim l) = jsTrim l :=
  jsTrim_eq_self _ (jsTrim_head?_not_space l) (jsTrim_getLast?_not_space l)

/-! ## Properties of `lastTermIdx`, `ensureTerm`, `truncateTo` -/

lemma isTerm_not_space (c : Char) (h : isTerm c = true) : jsIsSpace c = false := by
  simp only [isTerm, Bool.or_eq_true, beq_iff_eq] at h
  rcases h with (h | h) | h <;> subst h <;> decide

lemma lastTermIdx_spec (l : Str) (i : Nat) (h : lastTermIdx l = some i) :
    i < l.length ∧ ∃ c, isTerm c = true ∧ (l.take (i + 1)).getLast? = some c := by
  induction l generalizing i with
  | nil => simp [lastTermIdx] at h
  | cons a as ih =>
    rw [lastTermIdx] at h
    cases hj : lastTermIdx as with
    | some j =>
      rw [hj] at h
      cases h
      obtain ⟨hlt, c, hc, hlast⟩ := ih j hj
      refine ⟨by simpa using Nat.succ_lt_succ hlt, c, hc, ?_⟩
      rw [List.take_succ_cons]
      have hne : as.take (j + 1) ≠ [] := by
        apply List.ne_nil_of_length_pos
        rw [List.length_take]
        exact lt_min (Nat.succ_pos _) (Nat.lt_of_le_of_lt (Nat.zero_le _) hlt)
      have : (a :: as.take (j + 1)) = [a] ++ as.take (j + 1) := rfl
      rw [this, List.getLast?_append, hlast]
      rfl
    | none =>
      rw [hj] at h
      by_cases ha : isTerm a
      · rw [if_pos ha] at h
        cases h
        exact ⟨Nat.succ_pos _, a, ha, by simp⟩
      · rw [if_neg ha] at h
        cases h

lemma endsInTerm_of (l : Str) (c : Char) (h : l.getLast? = some c)
    (hc : isTerm c = true) : endsInTerm l = true := by
  unfold endsInTerm
  rw [h]
  exact hc

lemma cutOrDot_of_some (c : Str) (i : Nat) (h : lastTermIdx c = some i) :
    cutOrDot c = if 0 < i then c.take (i + 1) else c ++ ['.'] := by
  unfold cutOrDot
  rw [h]

lemma cutOrDot_of_none (c : Str) (h : lastTermIdx c = none) :
    cutOrDot c = c ++ ['.'] := by
  unfold cutOrDot
  rw [h]

lemma cutOrDot_ends (c : Str) :
    ∃ t, isTerm t = true ∧ (cutOrDot c).getLast? = some t := by
  cases hi : lastTermIdx c with
  | some i =>
    rw [cutOrDot_of_some c i hi]
    obtain ⟨hlt, t, ht, hlast⟩ := lastTermIdx_spec c i hi
    by_cases h0 : 0 < i
    · rw [if_pos h0]
      exact ⟨t, ht, hlast⟩
    · rw [if_neg h0]
      exact ⟨'.', by decide, List.getLast?_concat c⟩
  | none =>
    rw [cutOrDot_of_none c hi]
    exact ⟨'.', by decide, List.getLast?_concat c⟩

lemma cutOrDot_length (c : Str) :
    (cutOrDot c).length ≤ c.length + 1 ∧
    ((cutOrDot c).length ≤ c.length ∨ (cutOrDot c).getLast? = some '.') := by
  cases hi : lastTermIdx c with
  | some i =>
    rw [cutOrDot_of_some c i hi]
    obtain ⟨hlt, -⟩ := lastTermIdx_spec c i hi
    by_cases h0 : 0 < i
    · rw [if_pos h0]
      have hle : (c.take (i + 1)).length ≤ c.length := by
        rw [List.length_take]; omega
      exact ⟨Nat.le_succ_of_le hle, Or.inl hle⟩
    · rw [if_neg h0]
      exact ⟨by simp, Or.inr (List.getLast?_concat c)⟩
  | none =>
    rw [cutOrDot_of_none c hi]
    exact ⟨by simp, Or.inr (List.getLast?_concat c)⟩

lemma ensureTerm_ends (c : Str) :
    ∃ t, isTerm t = true ∧ (ensureTerm c).getLast? = some t := by
  unfold ensureTerm
  by_cases he : endsInTerm c
  · rw [if_pos he]
    unfold endsInTerm at he
    cases hl : c.getLast? with
    | none => rw [hl] at he; exact absurd he (by simp)
    | some t => rw [hl] at he; exact ⟨t, he, rfl⟩
  · rw [if_neg he]
    obtain ⟨t, ht, hlast⟩ := cutOrDot_ends c
    exact ⟨t, ht, jsTrim_getLast?_of _ _ hlast (isTerm_not_space t ht)⟩

lemma ensureTerm_length (c : Str) :
    (ensureTerm c).length ≤ c.length + 1 ∧
    ((ensureTerm c).length ≤ c.length ∨ (ensureTerm c).getLast? = some '.') := by
  unfold ensureTerm
  by_cases he : endsInTerm c
  · rw [if_pos he]
    exact ⟨Nat.le_succ _, Or.inl (Nat.le_refl _)⟩
  · rw [if_neg he]
    obtain ⟨h1, h2⟩ := cutOrDot_length c
    constructor
    · exact Nat.le_trans (jsTrim_length_le _) h1
    · cases h2 with
      | inl hle => exact Or.inl (Nat.le_trans (jsTrim_length_le _) hle)
      | inr hdot => exact Or.inr (jsTrim_getLast?_of _ _ hdot (by decide))

lemma cutAfterThreshold_of_some (s : Str) (i : Nat) (h : lastTermIdx s = some i) :
    cutAfterThreshold s = if 40 < i then s.take (i + 1) else s := by
  unfold cutAfterThreshold
  rw [h]

lemma cutAfterThreshold_of_none (s : Str) (h : lastTermIdx s = none) :
    cutAfterThreshold s = s := by
  unfold cutAfterThreshold
  rw [h]

lemma cutAfterThreshold_length (s : Str) : (cutAfterThreshold s).length ≤ s.length := by
  cases hi : lastTermIdx s with
  | some i =>
    rw [cutAfterThreshold_of_some s i hi]
    by_cases h40 : 40 < i
    · rw [if_pos h40]
      rw [List.length_take]
      omega
    · rw [if_neg h40]
  | none => rw [cutAfterThreshold_of_none s hi]

lemma truncateTo_length (c : Str) (mc : Nat) : (truncateTo c mc).length ≤ mc := by
  unfold truncateTo
  by_cases hmc : mc < c.length
  · rw [if_pos hmc]
    calc (jsTrim (cutAfterThreshold (c.take mc))).length
        ≤ (cutAfterThreshold (c.take mc)).length := jsTrim_length_le _
      _ ≤ (c.take mc).length := cutAfterThreshold_length _
      _ ≤ mc := by rw [List.length_take]; omega
  · rw [if_neg hmc]
    omega

/-! ## Claim theorems: the Text Finalizer guarantees -/

/-- C2: For every value passed to `finalizeReply` (non-strings, the empty
string, whitespace-only strings, strings without a sentence terminator,
and every `maxChars`/`maxSentences`), the returned string is either empty
or its last character is one of `.`, `!`, `?`. -/
theorem finalize_ends_in_terminator_or_empty (v : JsValue) (mc ms : Nat) :
    finalizeReplyJs v mc ms = [] ∨ endsInTerm (finalizeReplyJs v mc ms) = true := by
  cases v with
  | notStr => exact Or.inl rfl
  | str s =>
    show finalizeReply s mc ms = [] ∨ endsInTerm (finalizeReply s mc ms) = true
    unfold finalizeReply
    by_cases hn : (jsTrim (collapseWs s)).isEmpty
    · rw [if_pos hn]
      exact Or.inl rfl
    · rw [if_neg hn]
      obtain ⟨t, ht, hlast⟩ := ensureTerm_ends (truncateTo (candidateOf (jsTrim (collapseWs s)) ms) mc)
      exact Or.inr (endsInTerm_of _ t hlast ht)

/-- C3: For every input and every `maxChars`, the output length is at most
`maxChars + 1`, and it can exceed `maxChars` only in the case where a `.`
was appended because no terminator was found within bounds (so the output
then ends in the appended `.`). -/
theorem finalize_length_bounded (v : JsValue) (mc ms : Nat) :
    (finalizeReplyJs v mc ms).length ≤ mc + 1 ∧
    (mc < (finalizeReplyJs v mc ms).length →
      (finalizeReplyJs v mc ms).getLast? = some '.') := by
  cases v with
  | notStr =>
    refine ⟨Nat.zero_le _, fun h => absurd h ?_⟩
    show ¬ mc < ([] : Str).length
    simp
  | str s =>
    show (finalizeReply s mc ms).length ≤ mc + 1 ∧
      (mc < (finalizeReply s mc ms).length → (finalizeReply s mc ms).getLast? = some '.')
    unfold finalizeReply
    by_cases hn : (jsTrim (collapseWs s)).isEmpty
    · rw [if_pos hn]
      exact ⟨Nat.zero_le _, fun h => absurd h (by simp)⟩
    · rw [if_neg hn]
      have htr := truncateTo_length (candidateOf (jsTrim (collapseWs s)) ms) mc
      obtain ⟨h1, h2⟩ := ensureTerm_length (truncateTo (candidateOf (jsTrim (collapseWs s)) ms) mc)
      refine ⟨Nat.le_trans h1 (Nat.succ_le_succ htr), fun hgt => ?_⟩
      cases h2 with
      | inl hle => omega
      | inr hdot => exact hdot

/-- Witness for C3: with `maxChars = 0` and input `"a"` the bound `mc + 1`
is attained and the output ends in the appended period. -/
theorem finalize_length_bounded_witness :
    (finalizeReplyJs (.str ['a']) 0 4).length ≤ 1 ∧
    (finalizeReplyJs (.str ['a']) 0 4).getLast? = some '.' :=
  ⟨(finalize_length_bounded (.str ['a']) 0 4).1,
   (finalize_length_bounded (.str ['a']) 0 4).2 (by decide)⟩

/-- C7: on `"Hi there. Hi there! Bye."` exactly two sentences survive
deduplication, `"Hi there."` and `"Bye."`: the segments `"Hi there."` and
`"Hi there!"` have identical normalized keys and the first occurrence
wins, so the final reply is `"Hi there. Bye."`. -/
theorem finalize_dedup_example :
    dedupSentences (sentenceMatches (jsTrim (collapseWs ("Hi there. Hi there! Bye.".toList))))
        = [("Hi there.".toList), ("Bye.".toList)] ∧
    normKey ("Hi there.".toList) = normKey ("Hi there!".toList) ∧
    finalizeReply ("Hi there. Hi there! Bye.".toList) 520 4
        = ("Hi there. Bye.".toList) := by
  exact ⟨by decide, by decide, by decide⟩

/-! ## Deduplication drops empty-key segments (claim C10) -/

lemma dedupAux_cons (seen : List Str) (s : Str) (rest : List Str) :
    dedupAux seen (s :: rest) =
      if (normKey s).isEmpty || seen.contains (normKey s) then dedupAux seen rest
      else jsTrim s :: dedupAux (normKey s :: seen) rest := rfl

lemma dedupAux_filter_empty_key (parts : List Str) : ∀ seen,
    dedupAux seen (parts.filter (fun s => !(normKey s).isEmpty)) = dedupAux seen parts := by
  induction parts with
  | nil => intro seen; rfl
  | cons s rest ih =>
    intro seen
    by_cases h : (!(normKey s).isEmpty) = true
    · rw [List.filter_cons, if_pos h, dedupAux_cons, dedupAux_cons]
      by_cases hc : ((normKey s).isEmpty || seen.contains (normKey s)) = true
      · rw [if_pos hc, if_pos hc, ih seen]
      · rw [if_neg hc, if_neg hc, ih (normKey s :: seen)]
    · have hkey : (normKey s).isEmpty = true := by simpa using h
      rw [List.filter_cons, if_neg h, ih seen, dedupAux_cons,
        if_pos (by rw [hkey]; rfl)]

/-- C10: a sentence segment whose normalized key is empty (no letters or
digits survive the key normalization, e.g. a punctuation-only segment) is
dropped even on its first occurrence: deduplication gives the same result
as if those segments were removed up front, a punctuation-only first
segment does not survive, and it never reaches the joined candidate. -/
theorem dedup_drops_empty_key_segments :
    (∀ parts : List Str,
      dedupSentences (parts.filter (fun s => !(normKey s).isEmpty)) = dedupSentences parts) ∧
    dedupSentences [("-!".toList), ("Hi.".toList)] = [("Hi.".toList)] ∧
    finalizeReply ("-! Hi.".toList) 520 4 = ("Hi.".toList) := by
  refine ⟨fun parts => dedupAux_filter_empty_key parts [], by decide, by decide⟩

/-! ## Admin authorization (server.js lines 96-99, claim C4) -/

/-- `isAdminAuthorized` (server.js lines 96-99): the configured secret
`ADMIN_TOKEN` and the optional `x-admin-token` request header (a missing
header is coerced to the empty string by `String(... || "")`); the header
token is trimmed and compared to the secret, which must be truthy
(non-empty). -/
def isAdminAuthorized (adminToken : Str) (header : Option Str) : Bool :=
  let token := jsTrim (header.getD [])
  !adminToken.isEmpty && token == adminToken

/-- C4 counterexample: with secret `"abc"` and header `" abc"` the request
is authorized although the header value does not exactly match the secret
(the code trims the header before comparing), refuting the claimed
"exactly matches" biconditional. -/
theorem admin_auth_not_exact_match :
    isAdminAuthorized ("abc".toList) (some (" abc".toList)) = true ∧
    (" abc".toList : Str) ≠ ("abc".toList) := by
  exact ⟨by decide, by decide⟩

/-- C4 (amended): an admin request is authorized if and only if the
configured secret is non-empty and the request's `x-admin-token` header
value, after trimming surrounding whitespace (a missing header counting
as empty), equals the secret; in particular with an empty configured
secret every request is unauthorized, even one with a matching empty
header. -/
theorem admin_auth_iff_trimmed_match :
    (∀ (secret : Str) (header : Option Str),
      isAdminAuthorized secret header = true ↔
        secret ≠ [] ∧ jsTrim (header.getD []) = secret) ∧
    (∀ header, isAdminAuthorized [] header = false) ∧
    isAdminAuthorized [] (some []) = false := by
  refine ⟨fun secret header => ?_, fun header => ?_, by decide⟩
  · unfold isAdminAuthorized
    simp [List.isEmpty_iff]
  · unfold isAdminAuthorized
    simp

/-! ## Lead validation (server.js lines 103-133, claim C9) -/

/-- Result of `Number(answers[key])` as far as the validation cares: an
integral numeric value, or anything that is not an integer (`NaN` from a
missing or non-numeric field, or a fractional number). -/
inductive JsNum where
  | int (n : Int)
  | nonInt
deriving DecidableEq

/-- `Number(answers[key])` coerced for storage; in the saved branch the
value is always integral. -/
def jsNumVal : JsNum → Int
  | .int n => n
  | .nonInt => 0

/-- One conjunct of `validAnswers` (server.js lines 111-114):
`Number.isInteger(value) && value >= 1 && value <= 5`. -/
def answerOk : JsNum → Bool
  | .int n => decide (1 ≤ n) && decide (n ≤ 5)
  | .nonInt => false

/-- `["q1","q2","q3","q4"].every(...)` (server.js lines 111-114). -/
def validAnswers (q1 q2 q3 q4 : JsNum) : Bool :=
  answerOk q1 && answerOk q2 && answerOk q3 && answerOk q4

/-- The character class `[^\s@]` of the RFC-lite email regex. -/
def emailChunkChar (c : Char) : Bool := !jsIsSpace c && c != '@'

/-- The test `/^[^\s@]+@[^\s@]+\.[^\s@]+$/.test(email)` (server.js
line 110): the string decomposes as a non-empty `[^\s@]` run, `@`, a
non-empty run, `.`, and a final non-empty run (the runs may themselves
contain further dots). -/
def emailOk (e : Str) : Bool :=
  (List.range e.length).any fun i =>
    (List.range e.length).any fun j =>
      decide (1 ≤ i) && decide (i + 1 < j) && decide (j + 1 < e.length) &&
      (e.take i).all emailChunkChar &&
      (e[i]? == some '@') &&
      ((e.drop (i + 1)).take (j - i - 1)).all emailChunkChar &&
      (e[j]? == some '.') &&
      (e.drop (j + 1)).all emailChunkChar

/-- `String(req.body?.email || "").trim().toLowerCase()` (server.js
line 105). -/
def normalizeEmail (e : Str) : Str := (jsTrim e).map jsToLower

/-- A stored lead, as assembled by the `/api/match-lead` handler
(server.js lines 120-133); `createdAt` is optional because `readMatchLeads`
also consumes documents where it may be absent. -/
structure Lead where
  email : Str
  consent : Bool
  q1 : Int
  q2 : Int
  q3 : Int
  q4 : Int
  score : Int
  percentage : Int
  createdAt : Option Str
  source : Str
deriving DecidableEq

/-- The request body of `POST /api/match-lead` after the duck-typed field
coercions of server.js lines 105-109. -/
structure MatchLeadBody where
  email : Str
  consent : Bool
  q1 : JsNum
  q2 : JsNum
  q3 : JsNum
  q4 : JsNum
  score : Int
  percentage : Int
deriving DecidableEq

/-- Outcome of the `/api/match-lead` handler: one of the three 400
validation rejections, or the lead that gets saved. -/
inductive LeadResult where
  | badEmail
  | badConsent
  | badAnswers
  | saved (l : Lead)
deriving DecidableEq

/-- The validation and save logic of the `/api/match-lead` handler
(server.js lines 103-135); `now` is the server-assigned ISO timestamp. -/
def handleMatchLead (b : MatchLeadBody) (now : Str) : LeadResult :=
  let email := normalizeEmail b.email
  if !emailOk email then .badEmail
  else if !b.consent then .badConsent
  else if !validAnswers b.q1 b.q2 b.q3 b.q4 then .badAnswers
  else .saved
    { email := email
      consent := b.consent
      q1 := jsNumVal b.q1
      q2 := jsNumVal b.q2
      q3 := jsNumVal b.q3
      q4 := jsNumVal b.q4
      score := b.score
      percentage := b.percentage
      createdAt := some now
      source := "match-form".toList }

/-- Discriminates the saved outcome from the three 400 rejections. -/
def leadSaved : LeadResult → Bool
  | .saved _ => true
  | _ => false

/-- C9: a `/api/match-lead` request results in a saved lead exactly when
the normalized email matches the RFC-lite pattern, consent is true, and
all four answers are integers in `[1,5]`; otherwise it is rejected with a
400 validation error. `consent = false` is rejected regardless of the
other fields, `"not-an-email"` fails the email check, and `q2 = 0` fails
the answer check (with `q1 = 5`, `q3 = q4 = 3`). -/
theorem matchLead_validation :
    (∀ (b : MatchLeadBody) (now : Str),
      leadSaved (handleMatchLead b now)
        = (emailOk (normalizeEmail b.email) && b.consent
            && validAnswers b.q1 b.q2 b.q3 b.q4)) ∧
    (∀ (b : MatchLeadBody) (now : Str),
      leadSaved (handleMatchLead { b with consent := false } now) = false) ∧
    emailOk (normalizeEmail ("not-an-email".toList)) = false ∧
    validAnswers (.int 5) (.int 0) (.int 3) (.int 3) = false ∧
    (∀ now, leadSaved (handleMatchLead
      { email := ("x@y.se".toList), consent := true,
        q1 := .int 5, q2 := .int 1, q3 := .int 3, q4 := .int 3,
        score := 10, percentage := 80 } now) = true) := by
  have hmain : ∀ (b : MatchLeadBody) (now : Str),
      leadSaved (handleMatchLead b now)
        = (emailOk (normalizeEmail b.email) && b.consent
            && validAnswers b.q1 b.q2 b.q3 b.q4) := by
    intro b now
    unfold handleMatchLead
    by_cases he : emailOk (normalizeEmail b.email)
    · by_cases hc : b.consent
      · by_cases ha : validAnswers b.q1 b.q2 b.q3 b.q4
        · simp [he, hc, ha, leadSaved]
        · simp [he, hc, ha, leadSaved]
      · simp [he, hc, leadSaved]
    · simp [he, leadSaved]
  refine ⟨hmain, fun b now => ?_, by decide, by decide, fun now => ?_⟩
  · rw [hmain]
    simp
  · rw [hmain]
    decide

/-! ## Chat relay message assembly (server.js lines 142-192, claim C1) -/

/-- Roles of a chat message; the client may only supply `user` and
`assistant`, the server prepends `system` messages. -/
inductive Role where
  | user
  | assistant
  | system
deriving DecidableEq

/-- A chat-completion message. -/
structure ChatMsg where
  role : Role
  content : Str
deriving DecidableEq

/-- Message assembly of the `/api/chat` handler (server.js lines 177-192),
given the two system prompts (whose texts live in `prompts.js`, outside
this file's sources, and are irrelevant parameters here), the accepted
(validated, capped) history, and the already-trimmed user message: the
two system messages come first, then the history, then the new user
message — except that the new user message is not pushed when some
history entry is a user turn whose trimmed content equals the message
(`hasLatestUser`, computed with `Array.prototype.some`). -/
def assembleMessages (sysPrompt knowledgeBlock : Str)
    (validatedHistory : List ChatMsg) (message : Str) : List ChatMsg :=
  let base := [⟨.system, sysPrompt⟩, ⟨.system, knowledgeBlock⟩]
  if validatedHistory.isEmpty then base ++ [⟨.user, message⟩]
  else
    let msgs := base ++ validatedHistory
    if validatedHistory.any (fun m => m.role == .user && jsTrim m.content == message)
    then msgs
    else msgs ++ [⟨.user, message⟩]

/-- C1 counterexample: history `[user "hi", assistant "yo"]` with new
message `"hi"` — the last history entry is not a matching user turn, so
the claim says the new message is appended, but the code's
`Array.prototype.some` scan finds the earlier identical user turn and
omits it. -/
theorem assemble_earlier_duplicate_suppresses_append :
    (([⟨.user, "hi".toList⟩, ⟨.assistant, "yo".toList⟩] : List ChatMsg).getLast?
        = some ⟨.assistant, "yo".toList⟩) ∧
    (⟨.assistant, "yo".toList⟩ : ChatMsg).role ≠ .user ∧
    assembleMessages ("S".toList) ("K".toList)
        [⟨.user, "hi".toList⟩, ⟨.assistant, "yo".toList⟩] ("hi".toList)
      = [⟨.system, "S".toList⟩, ⟨.system, "K".toList⟩,
         ⟨.user, "hi".toList⟩, ⟨.assistant, "yo".toList⟩] ∧
    assembleMessages ("S".toList) ("K".toList)
        [⟨.user, "hi".toList⟩, ⟨.assistant, "yo".toList⟩] ("hi".toList)
      ≠ [⟨.system, "S".toList⟩, ⟨.system, "K".toList⟩,
         ⟨.user, "hi".toList⟩, ⟨.assistant, "yo".toList⟩, ⟨.user, "hi".toList⟩] := by
  exact ⟨by decide, by decide, by decide, by decide⟩

/-- C1 (amended): with a non-empty accepted history, the new user message
is omitted when SOME history entry (not necessarily the last) is a user
turn whose trimmed content equals the trimmed new message, and appended
after the history otherwise. -/
theorem assemble_appends_iff_no_matching_user_turn
    (sp kb : Str) (hist : List ChatMsg) (msg : Str) (hne : hist ≠ []) :
    ((∃ m ∈ hist, m.role = .user ∧ jsTrim m.content = msg) →
      assembleMessages sp kb hist msg
        = [⟨.system, sp⟩, ⟨.system, kb⟩] ++ hist) ∧
    ((¬ ∃ m ∈ hist, m.role = .user ∧ jsTrim m.content = msg) →
      assembleMessages sp kb hist msg
        = [⟨.system, sp⟩, ⟨.system, kb⟩] ++ hist ++ [⟨.user, msg⟩]) := by
  have hB : hist.any (fun m => m.role == .user && jsTrim m.content == msg) = true ↔
      ∃ m ∈ hist, m.role = .user ∧ jsTrim m.content = msg := by
    rw [List.any_eq_true]
    constructor
    · rintro ⟨m, hm, hp⟩
      simp only [Bool.and_eq_true, beq_iff_eq] at hp
      exact ⟨m, hm, hp⟩
    · rintro ⟨m, hm, h1, h2⟩
      exact ⟨m, hm, by simp [h1, h2]⟩
  unfold assembleMessages
  rw [if_neg (by simpa [List.isEmpty_iff] using hne)]
  constructor
  · intro hex
    rw [if_pos (hB.mpr hex)]
  · intro hnex
    rw [if_neg (fun hb => hnex (hB.mp hb))]

/-- Witness for the amended C1 at a concrete input: one-element assistant
history, message `"hej"`, no matching user turn, so the message is
appended. -/
theorem assemble_appends_witness :
    assembleMessages ("S".toList) ("K".toList)
        [⟨.assistant, "yo".toList⟩] ("hej".toList)
      = [⟨.system, "S".toList⟩, ⟨.system, "K".toList⟩,
         ⟨.assistant, "yo".toList⟩, ⟨.user, "hej".toList⟩] := by
  have h := (assemble_appends_iff_no_matching_user_turn
    ("S".toList) ("K".toList) [⟨.assistant, "yo".toList⟩] ("hej".toList)
    (by decide)).2 (by decide)
  simpa using h

/-! ## Lead store read view (server.js lines 84-94, claim C5) -/

/-- Lexicographic strict comparison of strings by code unit, the order
underlying `String.prototype.localeCompare` on the ISO-8601 timestamp
strings the server assigns (digits, `-`, `:`, `.`, `T`, `Z`), where
collation and code-unit order coincide. -/
def strLt : Str → Str → Bool
  | [], [] => false
  | [], _ :: _ => true
  | _ :: _, [] => false
  | a :: as, b :: bs =>
    if a.toNat < b.toNat then true
    else if b.toNat < a.toNat then false
    else strLt as bs

/-- Non-strict counterpart of `strLt`. -/
def strLe (a b : Str) : Bool := !strLt b a

/-- `String(lead.createdAt || "")` (server.js line 89): the sort key, with
a missing or empty `createdAt` read as the empty string. -/
def leadKey (l : Lead) : Str := l.createdAt.getD []

/-- One insertion step of a stable sort placing `x` after every already
placed lead whose key is at least `x`'s: realizes the comparator
`(a, b) => String(b.createdAt || "").localeCompare(String(a.createdAt || ""))`
of server.js line 89 (descending by `createdAt`). -/
def insertLead (x : Lead) : List Lead → List Lead
  | [] => [x]
  | y :: ys =>
    if strLe (leadKey x) (leadKey y) then y :: insertLead x ys
    else x :: y :: ys

/-- `parsed.sort(comparator)` of server.js line 89 as a stable insertion
sort, descending by `createdAt`. -/
def sortLeadsDesc : List Lead → List Lead
  | [] => []
  | x :: xs => insertLead x (sortLeadsDesc xs)

/-- The states of the persisted lead document that `readMatchLeads`
distinguishes without failing: file absent (`ENOENT`), parsed JSON that is
not an array, or an array of leads. (A read error other than `ENOENT`, or
unparseable JSON, is re-thrown by the code and is outside this model.) -/
inductive LeadsDoc where
  | absent
  | notArray
  | arr (leads : List Lead)

/-- `readMatchLeads` (server.js lines 84-94). -/
def readMatchLeads : LeadsDoc → List Lead
  | .absent => []
  | .notArray => []
  | .arr ls => sortLeadsDesc ls

lemma charEqOfToNat (x y : Char) (h : x.toNat = y.toNat) : x = y :=
  Char.ext (UInt32.ext h)

lemma strLt_irrefl (a : Str) : strLt a a = false := by
  induction a with
  | nil => rfl
  | cons c cs ih =>
    rw [strLt]
    simp [ih]

lemma strLt_trans (a b c : Str) (hab : strLt a b = true) (hbc : strLt b c = true) :
    strLt a c = true := by
  induction a generalizing b c with
  | nil =>
    cases c with
    | nil =>
      cases b with
      | nil => exact absurd hab (by simp [strLt])
      | cons y ys => exact absurd hbc (by simp [strLt])
    | cons z zs => rfl
  | cons x xs ih =>
    cases b with
    | nil => exact absurd hab (by simp [strLt])
    | cons y ys =>
      cases c with
      | nil => exact absurd hbc (by simp [strLt])
      | cons z zs =>
        rw [strLt] at hab hbc ⊢
        by_cases hxy : x.toNat < y.toNat
        · by_cases hyz : y.toNat < z.toNat
          · simp [Nat.lt_trans hxy hyz]
          · rw [if_pos hxy] at hab
            by_cases hzy : z.toNat < y.toNat
            · rw [if_neg hyz, if_pos hzy] at hbc
              exact absurd hbc (by simp)
            · have hyz' : y.toNat = z.toNat := by omega
              simp [hyz' ▸ hxy]
        · by_cases hyx : y.toNat < x.toNat
          · rw [if_neg hxy, if_pos hyx] at hab
            exact absurd hab (by simp)
          · have hxy' : x.toNat = y.toNat := by omega
            rw [if_neg hxy, if_neg hyx] at hab
            by_cases hyz : y.toNat < z.toNat
            · simp [hxy' ▸ hyz]
            · by_cases hzy : z.toNat < y.toNat
              · rw [if_neg hyz, if_pos hzy] at hbc
                exact absurd hbc (by simp)
              · rw [if_neg hyz, if_neg hzy] at hbc
                have h1 : ¬ x.toNat < z.toNat := by omega
                have h2 : ¬ z.toNat < x.toNat := by omega
                rw [if_neg h1, if_neg h2]
                exact ih ys zs hab hbc

lemma strLt_asymm (a b : Str) (h : strLt a b = true) : strLt b a = false := by
  cases hx : strLt b a
  · rfl
  · have := strLt_trans a b a h hx
    rw [strLt_irrefl] at this
    exact absurd this (by simp)

lemma strLt_connex (a b : Str) (hab : strLt a b = false) (hba : strLt b a = false) :
    a = b := by
  induction a generalizing b with
  | nil =>
    cases b with
    | nil => rfl
    | cons y ys => exact absurd hab (by simp [strLt])
  | cons x xs ih =>
    cases b with
    | nil => exact absurd hba (by simp [strLt])
    | cons y ys =>
      rw [strLt] at hab hba
      by_cases hxy : x.toNat < y.toNat
      · rw [if_pos hxy] at hab
        exact absurd hab (by simp)
      · by_cases hyx : y.toNat < x.toNat
        · rw [if_pos hyx] at hba
          exact absurd hba (by simp)
        · rw [if_neg hxy, if_neg hyx] at hab
          rw [if_neg hyx, if_neg hxy] at hba
          rw [charEqOfToNat x y (by omega), ih ys hab hba]

lemma strLe_total (a b : Str) : strLe a b = true ∨ strLe b a = true := by
  unfold strLe
  cases hba : strLt b a
  · exact Or.inl rfl
  · rw [strLt_asymm b a hba]
    exact Or.inr rfl

lemma strLe_trans (a b c : Str) (hab : strLe a b = true) (hbc : strLe b c = true) :
    strLe a c = true := by
  unfold strLe at hab hbc ⊢
  simp only [Bool.not_eq_true'] at hab hbc
  suffices h : strLt c a = false by rw [h]; rfl
  cases hca : strLt c a
  · rfl
  · exfalso
    cases hbc' : strLt b c
    · have hbeq : b = c := strLt_connex b c hbc' hbc
      rw [hbeq] at hab
      rw [hab] at hca
      exact Bool.false_ne_true hca
    · have := strLt_trans b c a hbc' hca
      rw [this] at hab
      exact absurd hab (by simp)

lemma insertLead_perm (x : Lead) (l : List Lead) :
    (insertLead x l).Perm (x :: l) := by
  induction l with
  | nil => exact List.Perm.refl _
  | cons y ys ih =>
    rw [insertLead]
    split
    · exact List.Perm.trans (List.Perm.cons y ih) (List.Perm.swap x y ys)
    · exact List.Perm.refl _

lemma sortLeadsDesc_perm (l : List Lead) : (sortLeadsDesc l).Perm l := by
  induction l with
  | nil => exact List.Perm.refl _
  | cons x xs ih =>
    exact List.Perm.trans (insertLead_perm x (sortLeadsDesc xs)) (List.Perm.cons x ih)

lemma insertLead_sorted (x : Lead) (l : List Lead)
    (h : List.Pairwise (fun u v => strLe (leadKey v) (leadKey u) = true) l) :
    List.Pairwise (fun u v => strLe (leadKey v) (leadKey u) = true) (insertLead x l) := by
  induction l with
  | nil => simp [insertLead]
  | cons y ys ih =>
    rw [List.pairwise_cons] at h
    obtain ⟨h1, h2⟩ := h
    rw [insertLead]
    split
    · next hle =>
      rw [List.pairwise_cons]
      refine ⟨fun z hz => ?_, ih h2⟩
      rcases List.mem_cons.mp ((insertLead_perm x ys).mem_iff.mp hz) with hzx | hzy
      · subst hzx
        exact hle
      · exact h1 z hzy
    · next hnle =>
      rw [List.pairwise_cons]
      have hxy : strLe (leadKey y) (leadKey x) = true := by
        rcases strLe_total (leadKey x) (leadKey y) with h | h
        · exact absurd h hnle
        · exact h
      refine ⟨fun z hz => ?_, List.pairwise_cons.mpr ⟨h1, h2⟩⟩
      rcases List.mem_cons.mp hz with hzy | hzys
      · subst hzy
        exact hxy
      · exact strLe_trans _ _ _ (h1 z hzys) hxy

lemma sortLeadsDesc_sorted (l : List Lead) :
    List.Pairwise (fun u v => strLe (leadKey v) (leadKey u) = true) (sortLeadsDesc l) := by
  induction l with
  | nil => simp [sortLeadsDesc]
  | cons x xs ih => exact insertLead_sorted x (sortLeadsDesc xs) ih

/-- C5: `readMatchLeads` returns the empty list when the document is
absent or its parsed content is not an array (no failure in either case),
and otherwise returns a permutation of the parsed leads that is sorted
descending by `createdAt` under plain lexicographic string comparison,
with a missing `createdAt` keyed as the empty string. -/
theorem readMatchLeads_spec :
    readMatchLeads .absent = [] ∧
    readMatchLeads .notArray = [] ∧
    ∀ ls : List Lead,
      (readMatchLeads (.arr ls)).Perm ls ∧
      List.Pairwise (fun u v => strLe (leadKey v) (leadKey u) = true)
        (readMatchLeads (.arr ls)) :=
  ⟨rfl, rfl, fun ls => ⟨sortLeadsDesc_perm ls, sortLeadsDesc_sorted ls⟩⟩

/-! ## Normal forms of `collapseWs` and `jsTrim` (for claim C6) -/

/-- Invariant of `collapseWs` output: every whitespace character is the
ASCII space, and no two adjacent characters are both whitespace. -/
def NoWsRun (l : Str) : Prop :=
  (∀ c ∈ l, jsIsSpace c = true → c = ' ') ∧
  l.Chain' (fun x y => jsIsSpace x = true → jsIsSpace y = false)

lemma collapseWs_head_of_not_space (d : Char) (cs : Str) (hd : jsIsSpace d = false) :
    (collapseWs (d :: cs)).head? = some d := by
  cases cs with
  | nil => simp [collapseWs, hd]
  | cons e es => simp [collapseWs, hd]

lemma collapseWs_length_le (l : Str) : (collapseWs l).length ≤ l.length := by
  induction l using collapseWs.induct with
  | case1 => simp [collapseWs]
  | case2 c h => simp [collapseWs, h]
  | case3 c h => simp [collapseWs, h]
  | case4 c d cs hc hd ih =>
    rw [collapseWs, if_pos hc, if_pos hd]
    exact Nat.le_succ_of_le ih
  | case5 c d cs hc hd ih =>
    rw [collapseWs, if_pos hc, if_neg hd]
    simpa using ih
  | case6 c d cs hc ih =>
    rw [collapseWs, if_neg hc]
    simpa using ih

lemma collapseWs_noWsRun (l : Str) : NoWsRun (collapseWs l) := by
  induction l using collapseWs.induct with
  | case1 => exact ⟨by simp [collapseWs], by simp [collapseWs]⟩
  | case2 c h =>
    refine ⟨?_, by simp [collapseWs, h]⟩
    simp [collapseWs, h]
  | case3 c h =>
    refine ⟨?_, by simp [collapseWs, h]⟩
    intro x hx hsx
    rw [collapseWs, if_neg h] at hx
    rcases List.mem_singleton.mp hx with rfl
    exact absurd hsx (by simp [h])
  | case4 c d cs hc hd ih =>
    rw [collapseWs, if_pos hc, if_pos hd]
    exact ih
  | case5 c d cs hc hd ih =>
    rw [collapseWs, if_pos hc, if_neg hd]
    obtain ⟨hmem, hchain⟩ := ih
    have hd' : jsIsSpace d = false := by
      cases hx : jsIsSpace d
      · rfl
      · exact absurd hx hd
    refine ⟨?_, ?_⟩
    · intro x hx hsx
      rcases List.mem_cons.mp hx with rfl | hmem2
      · rfl
      · exact hmem x hmem2 hsx
    · rw [List.chain'_cons']
      refine ⟨?_, hchain⟩
      intro y hy
      rw [collapseWs_head_of_not_space d cs hd'] at hy
      rcases Option.mem_some_iff.mp hy with rfl
      intro
      exact hd'
  | case6 c d cs hc ih =>
    rw [collapseWs, if_neg hc]
    obtain ⟨hmem, hchain⟩ := ih
    have hc' : jsIsSpace c = false := by
      cases hx : jsIsSpace c
      · rfl
      · exact absurd hx hc
    refine ⟨?_, ?_⟩
    · intro x hx hsx
      rcases List.mem_cons.mp hx with rfl | hmem2
      · exact absurd hsx (by simp [hc'])
      · exact hmem x hmem2 hsx
    · rw [List.chain'_cons']
      refine ⟨?_, hchain⟩
      intro y hy hcx
      rw [hcx] at hc'
      exact absurd hc' (by simp)

lemma collapseWs_fix (l : Str) (h : NoWsRun l) : collapseWs l = l := by
  induction l using collapseWs.induct with
  | case1 => rfl
  | case2 c hc =>
    rw [collapseWs, if_pos hc, h.1 c (by simp) hc]
  | case3 c hc =>
    rw [collapseWs, if_neg hc]
  | case4 c d cs hc hd ih =>
    have hrel := (List.chain'_cons.mp h.2).1 hc
    rw [hrel] at hd
    exact absurd hd (by simp)
  | case5 c d cs hc hd ih =>
    obtain ⟨hmem, hchain⟩ := h
    have hc' : c = ' ' := hmem c (by simp) hc
    rw [collapseWs, if_pos hc, if_neg hd,
      ih ⟨fun x hx => hmem x (List.mem_cons_of_mem c hx), (List.chain'_cons.mp hchain).2⟩,
      hc']
  | case6 c d cs hc ih =>
    obtain ⟨hmem, hchain⟩ := h
    rw [collapseWs, if_neg hc,
      ih ⟨fun x hx => hmem x (List.mem_cons_of_mem c hx), (List.chain'_cons.mp hchain).2⟩]

lemma jsTrim_within (l : Str) : jsTrim l <:+: l := by
  unfold jsTrim
  have h1 : ((l.dropWhile jsIsSpace).reverse.dropWhile jsIsSpace).reverse
      <+: ((l.dropWhile jsIsSpace).reverse).reverse :=
    List.reverse_prefix.mpr (List.dropWhile_suffix _)
  rw [List.reverse_reverse] at h1
  exact List.IsInfix.trans (List.IsPrefix.isInfix h1)
    (List.IsSuffix.isInfix (List.dropWhile_suffix _))

lemma noWsRun_within {l m : Str} (h : NoWsRun m) (hinf : l <:+: m) : NoWsRun l :=
  ⟨fun c hc => h.1 c (List.Sublist.subset (List.IsInfix.sublist hinf) hc),
   List.Chain'.infix h.2 hinf⟩

/-! ## Single-sentence inputs (claim C6) -/

lemma smAux_nonterm (a : Str) (hna : ∀ c ∈ a, isTerm c = false) :
    ∀ (pre rest : Str), smAux pre [] (a ++ rest) = smAux (a.reverse ++ pre) [] rest := by
  induction a with
  | nil => intro pre rest; rfl
  | cons c a2 ih =>
    intro pre rest
    have hc : isTerm c = false := hna c (by simp)
    rw [List.cons_append, smAux, hc]
    simp only [Bool.false_eq_true, if_false, List.isEmpty_nil, if_true]
    rw [ih (fun x hx => hna x (List.mem_cons_of_mem c hx)) (c :: pre) rest]
    simp [List.append_assoc]

lemma smAux_allterm (b : Str) (htb : ∀ c ∈ b, isTerm c = true) :
    ∀ (pre ter : Str), pre ≠ [] → smAux pre ter b = smAux pre (b.reverse ++ ter) [] := by
  induction b with
  | nil => intro pre ter hp; rfl
  | cons c b2 ih =>
    intro pre ter hp
    have hc : isTerm c = true := htb c (by simp)
    have hstep : smAux pre ter (c :: b2) = smAux pre (c :: ter) b2 := by
      rw [smAux, hc, if_pos rfl]
      rw [if_neg (by simpa [List.isEmpty_iff] using hp)]
    rw [hstep, ih (fun x hx => htb x (List.mem_cons_of_mem c hx)) pre (c :: ter) hp]
    simp [List.append_assoc]

lemma smAux_nil_emit (pre ter : Str) (hp : pre ≠ []) (ht : ter ≠ []) :
    smAux pre ter [] = [pre.reverse ++ ter.reverse] := by
  rw [smAux]
  rw [if_neg (by simp [List.isEmpty_iff, hp, ht])]

lemma sentenceMatches_single (a b : Str) (ha : a ≠ []) (hb : b ≠ [])
    (hna : ∀ c ∈ a, isTerm c = false) (htb : ∀ c ∈ b, isTerm c = true) :
    sentenceMatches (a ++ b) = [a ++ b] := by
  unfold sentenceMatches
  rw [smAux_nonterm a hna [] b]
  rw [smAux_allterm b htb (a.reverse ++ []) [] (by simp [ha])]
  rw [smAux_nil_emit _ _ (by simp [ha]) (by simp [hb])]
  simp

lemma dedupSentences_single (s : Str) :
    dedupSentences [s] = if (normKey s).isEmpty then [] else [jsTrim s] := by
  unfold dedupSentences
  rw [dedupAux_cons]
  by_cases h : (normKey s).isEmpty = true
  · rw [if_pos (by rw [h]; rfl), if_pos h]
    rfl
  · rw [if_neg (by simp [h]), if_neg h]
    rfl

lemma finalize_fixpoint (s a b : Str) (ha : a ≠ []) (hb : b ≠ [])
    (hna : ∀ c ∈ a, isTerm c = false) (htb : ∀ c ∈ b, isTerm c = true)
    (hnorm : jsTrim (collapseWs s) = a ++ b) (hlen : s.length ≤ 520) :
    finalizeReply s 520 4 = a ++ b := by
  have hab_ne : a ++ b ≠ [] := by simp [ha]
  have hlen2 : (a ++ b).length ≤ 520 := by
    rw [← hnorm]
    exact le_trans (jsTrim_length_le _) (le_trans (collapseWs_length_le s) hlen)
  have hterm : endsInTerm (a ++ b) = true := by
    cases hx : b.getLast? with
    | none => exact absurd (List.getLast?_eq_none_iff.mp hx) hb
    | some t =>
      refine endsInTerm_of _ t ?_ (htb t (List.mem_of_mem_getLast? hx))
      rw [List.getLast?_append, hx]
      rfl
  have htr : jsTrim (a ++ b) = a ++ b := by
    rw [← hnorm, jsTrim_idem]
  have hcand : candidateOf (a ++ b) 4 = a ++ b := by
    unfold candidateOf
    rw [sentenceMatches_single a b ha hb hna htb, dedupSentences_single]
    by_cases hk : (normKey (a ++ b)).isEmpty = true
    · rw [if_pos hk]
      simp
    · rw [if_neg hk]
      rw [if_neg (by simp)]
      show jsTrim (joinSpace ([jsTrim (a ++ b)].take 4)) = a ++ b
      rw [htr]
      show jsTrim (joinSpace [a ++ b]) = a ++ b
      rw [joinSpace]
      exact htr
  unfold finalizeReply
  rw [hnorm, if_neg (by simp [List.isEmpty_iff, hab_ne]), hcand]
  unfold truncateTo
  rw [if_neg (by omega)]
  unfold ensureTerm
  rw [if_pos hterm]

/-- C6: for every string `s` of length at most 520 that normalizes to a
single terminator-ended sentence (a non-empty run of non-terminators
followed by a non-empty run of terminators), `finalizeReply` is a fixed
point after one application: applying it twice equals applying it once
(with the server's `maxChars = 520`, `maxSentences = 4`). -/
theorem finalize_idempotent_on_wellformed (s a b : Str) (ha : a ≠ []) (hb : b ≠ [])
    (hna : ∀ c ∈ a, isTerm c = false) (htb : ∀ c ∈ b, isTerm c = true)
    (hnorm : jsTrim (collapseWs s) = a ++ b) (hlen : s.length ≤ 520) :
    finalizeReply (finalizeReply s 520 4) 520 4 = finalizeReply s 520 4 := by
  have h1 := finalize_fixpoint s a b ha hb hna htb hnorm hlen
  rw [h1]
  have hnw : NoWsRun (a ++ b) := by
    rw [← hnorm]
    exact noWsRun_within (collapseWs_noWsRun s) (jsTrim_within _)
  have hnorm2 : jsTrim (collapseWs (a ++ b)) = a ++ b := by
    rw [collapseWs_fix _ hnw, ← hnorm, jsTrim_idem, hnorm]
  have hlen2 : (a ++ b).length ≤ 520 := by
    rw [← hnorm]
    exact le_trans (jsTrim_length_le _) (le_trans (collapseWs_length_le s) hlen)
  exact finalize_fixpoint (a ++ b) a b ha hb hna htb hnorm2 hlen2

/-- Witness for C6 at the concrete single-sentence input `"Hej."`. -/
theorem finalize_idempotent_witness :
    (("Hej".toList : Str) ≠ [] ∧ (['.'] : Str) ≠ [] ∧
     (∀ c ∈ ("Hej".toList : Str), isTerm c = false) ∧
     (∀ c ∈ (['.'] : Str), isTerm c = true) ∧
     jsTrim (collapseWs ("Hej.".toList)) = ("Hej".toList) ++ ['.'] ∧
     ("Hej.".toList : Str).length ≤ 520) ∧
    finalizeReply (finalizeReply ("Hej.".toList) 520 4) 520 4
      = finalizeReply ("Hej.".toList) 520 4 :=
  ⟨⟨by decide, by decide, by decide, by decide, by decide, by decide⟩,
   finalize_idempotent_on_wellformed ("Hej.".toList) ("Hej".toList) ['.']
     (by decide) (by decide) (by decide) (by decide) (by decide) (by decide)⟩

/-! ## Truncation at a terminator (claim C8) -/

lemma head?_take_succ (l : Str) (n : Nat) : (l.take (n + 1)).head? = l.head? := by
  cases l <;> rfl

lemma candidateOf_head_not_space (x : Str) (ms : Nat)
    (hx : ∀ c, x.head? = some c → jsIsSpace c = false) :
    ∀ c, (candidateOf x ms).head? = some c → jsIsSpace c = false := by
  unfold candidateOf
  split
  · exact hx
  · exact fun c hc => jsTrim_head?_not_space _ c hc

/-- C8: when the working candidate exceeds `maxChars = 520` and the
right-most terminator within its first 520 characters sits at index 45
(which exceeds the threshold 40), `finalizeReply` returns exactly the
first 46 characters of the candidate — the result ends at that
terminator, inclusive. -/
theorem finalize_truncates_at_terminator (t : Str)
    (hlen : 520 < (candidateOf (jsTrim (collapseWs t)) 4).length)
    (hidx : lastTermIdx ((candidateOf (jsTrim (collapseWs t)) 4).take 520) = some 45) :
    finalizeReply t 520 4 = (candidateOf (jsTrim (collapseWs t)) 4).take 46 ∧
    ∃ c, isTerm c = true ∧
      ((candidateOf (jsTrim (collapseWs t)) 4).take 46).getLast? = some c := by
  have hNne : (jsTrim (collapseWs t)).isEmpty = false := by
    cases hx : (jsTrim (collapseWs t)).isEmpty
    · rfl
    · have h0 : jsTrim (collapseWs t) = [] := List.isEmpty_iff.mp hx
      rw [h0] at hlen
      have h1 : candidateOf ([] : Str) 4 = [] := rfl
      rw [h1] at hlen
      exact absurd hlen (by simp)
  obtain ⟨hlt, c, hc, hlast520⟩ := lastTermIdx_spec _ 45 hidx
  have htake : (((candidateOf (jsTrim (collapseWs t)) 4).take 520).take 46)
      = (candidateOf (jsTrim (collapseWs t)) 4).take 46 := by
    rw [List.take_take, Nat.min_eq_left (by norm_num)]
  rw [htake] at hlast520
  have hterm46 : endsInTerm ((candidateOf (jsTrim (collapseWs t)) 4).take 46) = true :=
    endsInTerm_of _ c hlast520 hc
  have htrimfix : jsTrim ((candidateOf (jsTrim (collapseWs t)) 4).take 46)
      = (candidateOf (jsTrim (collapseWs t)) 4).take 46 := by
    apply jsTrim_eq_self
    · intro d hd
      rw [show (46 : Nat) = 45 + 1 from rfl, head?_take_succ] at hd
      exact candidateOf_head_not_space _ 4 (fun e he => jsTrim_head?_not_space _ e he) d hd
    · intro d hd
      rw [hlast520] at hd
      have hcd : c = d := Option.some.inj hd
      subst hcd
      exact isTerm_not_space c hc
  have hcut : cutAfterThreshold ((candidateOf (jsTrim (collapseWs t)) 4).take 520)
      = (candidateOf (jsTrim (collapseWs t)) 4).take 46 := by
    rw [cutAfterThreshold_of_some _ 45 hidx, if_pos (by norm_num), htake]
  refine ⟨?_, ⟨c, hc, hlast520⟩⟩
  unfold finalizeReply
  rw [if_neg (by simp [hNne])]
  unfold truncateTo
  rw [if_pos hlen, hcut, htrimfix]
  unfold ensureTerm
  rw [if_pos hterm46]

/-- The concrete witness text for C8: 45 letters, a period at index 45,
then 521 more letters and a final terminator; the joined two-sentence
candidate is 569 characters long and its only terminator within the first
520 characters is the period at index 45. -/
def truncWitnessText : Str :=
  List.replicate 45 'a' ++ ['.'] ++ List.replicate 521 'b' ++ ['!']

/-- Witness for C8 at `truncWitnessText`. -/
theorem finalize_truncates_witness :
    520 < (candidateOf (jsTrim (collapseWs truncWitnessText)) 4).length ∧
    lastTermIdx ((candidateOf (jsTrim (collapseWs truncWitnessText)) 4).take 520) = some 45 ∧
    finalizeReply truncWitnessText 520 4
      = (candidateOf (jsTrim (collapseWs truncWitnessText)) 4).take 46 :=
  ⟨by decide, by decide,
   (finalize_truncates_at_terminator truncWitnessText (by decide) (by decide)).1⟩
